import Mathlib

set_option maxRecDepth 4000

/-!
Verification of the numeric/codec core of the rn-sdk repository.

We shallowly embed the two backends of the arbitrary-precision signed
integer abstraction:

* the Computed backend (`RustBigInt` in `numbat-wasm-debug/src/big_int_mock.rs`),
  whose value is a `num_bigint::BigInt`, modelled as a Lean `Int`, and whose
  byte serialization follows num_bigint's `to_signed_bytes_be` /
  `from_signed_bytes_be` algorithms;
* the Delegated backend (`AndesBigInt` in `numbat-wasm-node/src/big_int.rs`),
  whose value is an opaque handle into host storage; the host is modelled as
  ideal big-integer storage (a list of `Int`s indexed by handle).

We also embed the argument-loader protocol and the async-call argument
serializer from `numbat-wasm/src/io/arg_types.rs` and
`numbat-wasm/src/io/arg_serialize.rs`.

Bytes are modelled as `Nat` values; all byte lists produced by the
definitions here have entries `< 256`.
-/

/-- Rust's three-way comparison (`Ord::cmp`) on integers, producing an
`Ordering`.  Used to model every `cmp` in the sources. -/
def icmp (a b : Int) : Ordering :=
  if a < b then Ordering.lt else if a = b then Ordering.eq else Ordering.gt

/-- Fuel-indexed radix conversion; the fuel only serves structural
termination and is irrelevant as long as it is at least the number being
converted. -/
def natToBytesBEFuel : Nat → Nat → List Nat
  | _, 0 => []
  | 0, _ + 1 => []
  | fuel + 1, n + 1 => natToBytesBEFuel fuel ((n + 1) / 256) ++ [(n + 1) % 256]

/-- Minimal big-endian base-256 digits of a natural number: empty for `0`,
otherwise most-significant byte first with no leading zero byte.  This is the
radix-conversion underlying `BigUint::to_bytes_be` for nonzero values. -/
def natToBytesBE (n : Nat) : List Nat :=
  natToBytesBEFuel n n

/-- Value of a big-endian base-256 digit list (`BigUint::from_bytes_be`). -/
def beToNat : List Nat → Nat
  | [] => 0
  | d :: rest => d * 256 ^ rest.length + beToNat rest

/-- num_bigint's `twos_complement` helper, iterating least-significant byte
first: each byte is bitwise negated, and while the carry is live one is added
with wrap-around (`*d = d.not(); if carry { *d = d.wrapping_add(1); carry = d.is_zero() }`). -/
def twosCompLE : Bool → List Nat → List Nat
  | _, [] => []
  | false, d :: rest => (255 - d % 256) :: twosCompLE false rest
  | true, d :: rest =>
      ((255 - d % 256 + 1) % 256) :: twosCompLE (decide ((255 - d % 256 + 1) % 256 = 0)) rest

/-- num_bigint's `twos_complement_be`: two's-complement of a big-endian byte
string, computed by running the least-significant-first pass on the reversed
digits. -/
def twosComplementBE (l : List Nat) : List Nat :=
  (twosCompLE true l.reverse).reverse

/-- Value of a little-endian base-256 digit list (helper for reasoning about
`twosCompLE`). -/
def leToNat : List Nat → Nat
  | [] => 0
  | d :: rest => d + 256 * leToNat rest

/-- `BigUint::to_bytes_be` from num_bigint: big-endian magnitude bytes, with
zero represented as the single byte `0`. -/
def magBytesBE (n : Nat) : List Nat :=
  if n = 0 then [0] else natToBytesBE n

/-- `BigInt::to_signed_bytes_be` from num_bigint, i.e.
`RustBigInt::to_signed_bytes_be` in the Computed backend
(src/numbat-wasm-debug/src/big_int_mock.rs): take the magnitude bytes, prepend
a zero byte when the most significant bit is taken by the magnitude (except
for the exact `0x80 00...00` negative edge case), then two's-complement the
string when the value is negative. -/
def toSignedBytesBE (x : Int) : List Nat :=
  let bytes := magBytesBE x.natAbs
  let first := bytes.headD 0
  let bytes2 :=
    if 127 < first ∧ ¬(first = 128 ∧ (∀ b ∈ bytes.tail, b = 0) ∧ x < 0) then
      0 :: bytes
    else bytes
  if x < 0 then twosComplementBE bytes2 else bytes2

/-- `BigInt::from_signed_bytes_be` from num_bigint, i.e.
`RustBigInt::from_signed_bytes_be` in the Computed backend: an empty string is
zero; a leading byte above `0x7f` marks a negative value whose magnitude is
recovered by two's-complementing the string. -/
def fromSignedBytesBE : List Nat → Int
  | [] => 0
  | v :: rest =>
      if 127 < v then -((beToNat (twosComplementBE (v :: rest)) : Int))
      else (beToNat (v :: rest) : Int)

/-- num_bigint's `Sign` enum (`Minus`/`NoSign`/`Plus`). -/
inductive NumSign
  | Minus
  | NoSign
  | Plus
deriving DecidableEq

/-- The SDK's `numbat_wasm::Sign` enum, as used by both backends' `sign`
implementations. -/
inductive Sign
  | Minus
  | NoSign
  | Plus
deriving DecidableEq

/-- `BigInt::sign` of num_bigint: the true three-state sign of the value. -/
def numBigIntSign (x : Int) : NumSign :=
  if x < 0 then NumSign.Minus else if x = 0 then NumSign.NoSign else NumSign.Plus

/-! ### Computed backend: `RustBigInt` (src/numbat-wasm-debug/src/big_int_mock.rs)

A `RustBigInt` owns a `num_bigint::BigInt`, modelled as a Lean `Int`.
num_bigint's `Div`/`Rem` are truncating (toward zero), i.e. `Int.tdiv` and
`Int.tmod`. -/

def rustAdd (a b : Int) : Int := a + b

def rustSub (a b : Int) : Int := a - b

def rustMul (a b : Int) : Int := a * b

def rustDiv (a b : Int) : Int := Int.tdiv a b

def rustRem (a b : Int) : Int := Int.tmod a b

def rustNeg (a : Int) : Int := -a

/-- `Ord::cmp` for `RustBigInt`: comparison of the underlying values. -/
def rustCmp (a b : Int) : Ordering := icmp a b

/-- `PartialEq::eq` for `RustBigInt`. -/
def rustEqB (a b : Int) : Bool := decide (a = b)

/-- `PartialEq<i64>::eq` for `RustBigInt`: compares against
`BigInt::from(*other)`, i.e. the promoted scalar. -/
def rustEqI64 (a s : Int) : Bool := decide (a = s)

/-- `PartialOrd<i64>::partial_cmp` for `RustBigInt` (always `Some`):
compares against the promoted scalar. -/
def rustPartialCmpI64 (a s : Int) : Ordering := icmp a s

/-- `BigIntApi::sign` of the Computed backend: num_bigint's sign, with
`Minus` mapped to `NoSign` (src/numbat-wasm-debug/src/big_int_mock.rs lines
184-190). -/
def rustSign (x : Int) : Sign :=
  match numBigIntSign x with
  | NumSign.Minus => Sign.NoSign
  | NumSign.NoSign => Sign.NoSign
  | NumSign.Plus => Sign.Plus

/-! ### Delegated backend: `AndesBigInt` (src/numbat-wasm-node/src/big_int.rs)

The host is modelled from the spec as ideal big-integer storage: a list of
integer values indexed by handle (§6, "Host arithmetic surface").  Every
`bigIntNew` allocates a fresh handle; handles are never released. -/

/-- Host storage: the values behind the opaque integer handles. -/
structure Host where
  vals : List Int
deriving DecidableEq

/-- Modelled from the spec: host `bigIntNew` — allocate a new integer value
from a machine-word literal, returning a fresh handle. -/
def bigIntNew (st : Host) (value : Int) : Host × Nat :=
  (⟨st.vals ++ [value]⟩, st.vals.length)

/-- Value currently stored behind a handle (unknown handles read as zero). -/
def getVal (st : Host) (h : Nat) : Int :=
  st.vals.getD h 0

/-- Overwrite the value behind a handle. -/
def setVal (st : Host) (h : Nat) (v : Int) : Host :=
  ⟨st.vals.set h v⟩

/-- Modelled from the spec: the host's binary arithmetic operations
(`bigIntAdd`, `bigIntSub`, `bigIntMul`, `bigIntTDiv`, `bigIntTMod`) write
the result of the operation on the two source handles into the destination
handle. -/
def hostBinOp (f : Int → Int → Int) (st : Host) (dest x y : Nat) : Host :=
  setVal st dest (f (getVal st x) (getVal st y))

/-- Modelled from the spec: host `bigIntSign` — the sign query on a handle's
value, reported as a negative/zero/positive machine integer. -/
def bigIntSign (st : Host) (x : Nat) : Int :=
  Int.sign (getVal st x)

/-- Modelled from the spec: host `bigIntCmp` — three-way comparison of two
handles' values, reported as a negative/zero/positive machine integer. -/
def bigIntCmp (st : Host) (x y : Nat) : Int :=
  Int.sign (getVal st x - getVal st y)

/-- Modelled from the spec: the host's big-endian signed byte retrieval
(`bigIntSignedByteLength` + `bigIntGetSignedBytes`).  The wire format of §6 is
minimal-length with the empty sequence representing zero; for nonzero values
it is the same canonical two's-complement big-endian encoding as §4.1, which
`toSignedBytesBE` computes. -/
def hostSignedBytes (x : Int) : List Nat :=
  if x = 0 then [] else toSignedBytesBE x

/-- Modelled from the spec: host `bigIntSetSignedBytes` — set a handle's value
from supplied big-endian signed bytes (the same wire format, decoded). -/
def bigIntSetSignedBytes (st : Host) (dest : Nat) (bytes : List Nat) : Host :=
  setVal st dest (fromSignedBytesBE bytes)

/-- The `binary_operator!` macro of the Delegated backend: allocate a zero
result handle, then ask the host to write the operation's result into it. -/
def andesBinOp (f : Int → Int → Int) (st : Host) (x y : Nat) : Host × Nat :=
  let p := bigIntNew st 0
  (hostBinOp f p.1 p.2 x y, p.2)

def andesAdd (st : Host) (x y : Nat) : Host × Nat := andesBinOp (· + ·) st x y

def andesSub (st : Host) (x y : Nat) : Host × Nat := andesBinOp (· - ·) st x y

def andesMul (st : Host) (x y : Nat) : Host × Nat := andesBinOp (· * ·) st x y

def andesTDiv (st : Host) (x y : Nat) : Host × Nat := andesBinOp Int.tdiv st x y

def andesTMod (st : Host) (x y : Nat) : Host × Nat := andesBinOp Int.tmod st x y

/-- `PartialEq::eq` for `AndesBigInt`: `bigIntCmp(...) == 0`. -/
def andesEqB (st : Host) (x y : Nat) : Bool := decide (bigIntCmp st x y = 0)

/-- `Ord::cmp` for `AndesBigInt`: `bigIntCmp(...).cmp(&0)`. -/
def andesCmpOrd (st : Host) (x y : Nat) : Ordering := icmp (bigIntCmp st x y) 0

/-- `BigIntApi::sign` of the Delegated backend: `bigIntSign(...)` mapped
through `cmp(&0)` into the three-variant enum (src/numbat-wasm-node/src/
big_int.rs lines 245-254). -/
def andesSign (st : Host) (x : Nat) : Sign :=
  match icmp (bigIntSign st x) 0 with
  | Ordering.gt => Sign.Plus
  | Ordering.eq => Sign.NoSign
  | Ordering.lt => Sign.Minus

/-- `BigIntApi::to_signed_bytes_be` of the Delegated backend: read the host's
signed bytes for the handle. -/
def andesToSignedBytesBE (st : Host) (x : Nat) : List Nat :=
  hostSignedBytes (getVal st x)

/-- `BigIntApi::from_signed_bytes_be` of the Delegated backend: allocate a
zero handle and set it from the bytes. -/
def andesFromSignedBytesBE (st : Host) (bytes : List Nat) : Host × Nat :=
  let p := bigIntNew st 0
  (bigIntSetSignedBytes p.1 p.2 bytes, p.2)

/-- `andes_cmp_i64` (src/numbat-wasm-node/src/big_int.rs lines 165-173):
comparison against a 64-bit scalar answers via the sign query when the scalar
is zero, otherwise promotes the scalar to a fresh handle and compares. -/
def andesCmpI64 (st : Host) (bi : Nat) (other : Int) : Int :=
  if other = 0 then bigIntSign st bi
  else
    let p := bigIntNew st other
    bigIntCmp p.1 bi p.2

/-- `PartialEq<i64>::eq` for `AndesBigInt`. -/
def andesEqI64 (st : Host) (bi : Nat) (other : Int) : Bool :=
  decide (andesCmpI64 st bi other = 0)

/-- `PartialOrd<i64>::partial_cmp` for `AndesBigInt` (always `Some`). -/
def andesPartialCmpI64 (st : Host) (bi : Nat) (other : Int) : Ordering :=
  icmp (andesCmpI64 st bi other) 0

/-- Comparison of a handle against the scalar promoted to a full value
(`Ord::cmp(self, &AndesBigInt::from(other))`): the reference result for the
scalar fast path. -/
def andesCmpPromotedI64 (st : Host) (bi : Nat) (other : Int) : Ordering :=
  let p := bigIntNew st other
  icmp (bigIntCmp p.1 bi p.2) 0

/-- Equality of a handle against the promoted scalar
(`PartialEq::eq(self, &AndesBigInt::from(other))`). -/
def andesEqPromotedI64 (st : Host) (bi : Nat) (other : Int) : Bool :=
  let p := bigIntNew st other
  decide (bigIntCmp p.1 bi p.2 = 0)

/-! ### Codec (numbat_codec, outside src/) and the nested big-int encoding -/

/-- Modelled from the spec: decode errors (malformed/truncated input). -/
inductive DecodeError
  | inputTooShort
deriving DecidableEq

/-- Modelled from the spec: the nested-mode length field — "the encoded byte
count of the value, itself encoded as an unsigned size field" — as a 32-bit
big-endian count. -/
def usizeDepEncode (n : Nat) : List Nat :=
  [n / 256 ^ 3 % 256, n / 256 ^ 2 % 256, n / 256 % 256, n % 256]

/-- Modelled from the spec: nested-mode decode of the unsigned size field. -/
def usizeDepDecode : List Nat → Except DecodeError (Nat × List Nat)
  | a :: b :: c :: d :: rest =>
      Except.ok (a * 256 ^ 3 + b * 256 ^ 2 + c * 256 + d, rest)
  | _ => Except.error DecodeError.inputTooShort

/-- Modelled from the spec: the codec input's `read_slice` — consume exactly
`n` bytes, failing when fewer remain. -/
def readSlice (n : Nat) (input : List Nat) : Except DecodeError (List Nat × List Nat) :=
  if n ≤ input.length then Except.ok (input.take n, input.drop n)
  else Except.error DecodeError.inputTooShort

/-- Modelled from the spec: nested (dep) encoding of a byte slice — the
unsigned size field followed by the bytes (`bytes.as_slice().dep_encode_to`). -/
def sliceDepEncode (s : List Nat) : List Nat :=
  usizeDepEncode s.length ++ s

/-- `dep_encode_to` of the Computed backend's big integer: nested-encode the
signed big-endian byte form. -/
def rustDepEncode (x : Int) : List Nat :=
  sliceDepEncode (toSignedBytesBE x)

/-- `dep_decode` of the Computed backend's big integer: read the size field,
consume exactly that many bytes, decode them as signed big-endian bytes. -/
def rustDepDecode (input : List Nat) : Except DecodeError (Int × List Nat) :=
  match usizeDepDecode input with
  | Except.error e => Except.error e
  | Except.ok (size, rest) =>
      match readSlice size rest with
      | Except.error e => Except.error e
      | Except.ok (bytes, rest2) => Except.ok (fromSignedBytesBE bytes, rest2)

/-- `dep_encode_to` of the Delegated backend's big integer
(src/numbat-wasm-node/src/big_int.rs lines 213-217). -/
def andesDepEncode (st : Host) (h : Nat) : List Nat :=
  sliceDepEncode (andesToSignedBytesBE st h)

/-- `dep_decode` of the Delegated backend's big integer
(src/numbat-wasm-node/src/big_int.rs lines 228-232): read the size field,
consume exactly that many bytes, build a new handle from them. -/
def andesDepDecode (st : Host) (input : List Nat) :
    Except DecodeError ((Host × Nat) × List Nat) :=
  match usizeDepDecode input with
  | Except.error e => Except.error e
  | Except.ok (size, rest) =>
      match readSlice size rest with
      | Except.error e => Except.error e
      | Except.ok (bytes, rest2) => Except.ok (andesFromSignedBytesBE st bytes, rest2)

/-! ### Argument loader protocol (src/numbat-wasm/src/io/arg_types.rs) -/

/-- The SDK's `SCError` as used by the loader and serializer sources:
a static message, or a wrapped encode error from the async-push path. -/
inductive SCError
  | Static (msg : String)
  | PushAsyncEncodeErr
deriving DecidableEq

/-- Modelled from the spec: the `err_msg::ARG_WRONG_NUMBER` static message
("wrong argument count" error). -/
def argWrongNumber : String := "wrong number of arguments"

/-- Modelled from the spec: the `err_msg::ARG_ASYNC_WRONG_NUMBER` static
message. -/
def argAsyncWrongNumber : String := "wrong number of async arguments"

/-- Modelled from the spec: the host-provided `DynArgLoader` over raw
arguments of one decoded type `α` — a sequence of pending `next_arg`
outcomes, each either a decoded raw argument or the loader/decode error that
retrieving it produces.  `has_next` reports whether entries remain. -/
def hasNext {α : Type} (l : List (Except SCError α)) : Bool :=
  !l.isEmpty

/-- Modelled from the spec: `DynArgLoader::next_arg` — pop the next raw
argument (`Ok(None)` once exhausted), propagating loader errors. -/
def nextArg {α : Type} :
    List (Except SCError α) → Except SCError (Option α × List (Except SCError α))
  | [] => Except.ok (none, [])
  | Except.ok v :: rest => Except.ok (some v, rest)
  | Except.error e :: _ => Except.error e

/-- The blanket `ArgType` implementation for a decodable non-unit type
(src/numbat-wasm/src/io/arg_types.rs lines 44-62): one `next_arg` call;
`Ok(Some)` is the value, `Ok(None)` is the static "wrong number of
arguments" error, and a loader error is propagated unchanged. -/
def singleLoad {α : Type} (l : List (Except SCError α)) :
    Except SCError (α × List (Except SCError α)) :=
  match nextArg l with
  | Except.ok (some v, rest) => Except.ok (v, rest)
  | Except.ok (none, _) => Except.error (SCError.Static argWrongNumber)
  | Except.error e => Except.error e

/-- The unit-marker path of the blanket implementation (lines 50-54): the
unit type is produced without consuming any raw argument. -/
def unitArgLoad {α : Type} (l : List (Except SCError α)) :
    Except SCError (Unit × List (Except SCError α)) :=
  Except.ok ((), l)

/-- `check_no_more_args` (lines 33-42): error iff the loader still reports a
next argument. -/
def checkNoMoreArgs {α : Type} (l : List (Except SCError α)) : Except SCError Unit :=
  if hasNext l then Except.error (SCError.Static argWrongNumber) else Except.ok ()

/-- `ArgType for VarArgs<T>` (lines 119-131): loop while `has_next`, loading
one element per iteration.  Each iteration is one `singleLoad`, which
consumes exactly the head entry (see `varArgsLoad_cons`). -/
def varArgsLoad {α : Type} :
    List (Except SCError α) → Except SCError (List α × List (Except SCError α))
  | [] => Except.ok ([], [])
  | x :: rest =>
      match x with
      | Except.error e => Except.error e
      | Except.ok v =>
          match varArgsLoad rest with
          | Except.error e => Except.error e
          | Except.ok (vs, rem) => Except.ok (v :: vs, rem)

/-- The `multi_arg_impls!` family (`MultiArgN`, arity-indexed, lines
200-245): load each component in declared order; with every component a
non-recursive decodable type, each consumes exactly one raw argument via the
blanket implementation. -/
def multiArgLoad {α : Type} :
    Nat → List (Except SCError α) → Except SCError (List α × List (Except SCError α))
  | 0, l => Except.ok ([], l)
  | n + 1, l =>
      match singleLoad l with
      | Except.error e => Except.error e
      | Except.ok (v, rest) =>
          match multiArgLoad n rest with
          | Except.error e => Except.error e
          | Except.ok (vs, rem) => Except.ok (v :: vs, rem)

/-- Loading a fixed-arity tuple followed by the caller's explicit
`check_no_more_args`. -/
def multiArgLoadThenCheck {α : Type} (n : Nat) (l : List (Except SCError α)) :
    Except SCError (List α) :=
  match multiArgLoad n l with
  | Except.error e => Except.error e
  | Except.ok (vs, rem) =>
      match checkNoMoreArgs rem with
      | Except.error e => Except.error e
      | Except.ok _ => Except.ok vs

/-- A loader whose pending raw arguments are exactly the values of `l`. -/
def okList {α : Type} (l : List α) : List (Except SCError α) :=
  l.map Except.ok

/-- `AsyncCallError` (lines 170-173). -/
structure AsyncCallError where
  err_code : Int
  err_msg : List Nat
deriving DecidableEq

/-- `AsyncCallResult` (lines 175-178). -/
inductive AsyncCallResult (β : Type)
  | Ok (v : β)
  | Err (e : AsyncCallError)
deriving DecidableEq

/-- `ArgType for AsyncCallResult<T>` (lines 180-198), parametric over the
loader exactly as the Rust impl is generic over `D`: load the `i32` error
code; on `0` load the success payload, otherwise load the message bytes. -/
def asyncCallResultLoad {St β : Type}
    (loadI32 : St → Except SCError (Int × St))
    (loadT : St → Except SCError (β × St))
    (loadBytes : St → Except SCError (List Nat × St))
    (st : St) : Except SCError (AsyncCallResult β × St) :=
  match loadI32 st with
  | Except.error e => Except.error e
  | Except.ok (err_code, st1) =>
      if err_code = 0 then
        match loadT st1 with
        | Except.error e => Except.error e
        | Except.ok (v, st2) => Except.ok (AsyncCallResult.Ok v, st2)
      else
        match loadBytes st1 with
        | Except.error e => Except.error e
        | Except.ok (msg, st2) => Except.ok (AsyncCallResult.Err ⟨err_code, msg⟩, st2)

/-! ### Async call argument serializer (src/numbat-wasm/src/io/arg_serialize.rs)

The serializer state (`CallDataSerializer`, outside src/) is modelled from
the spec as the ordered list of argument byte buffers pushed so far; push
functions return the Rust `(Result, final state of the borrowed serializer)`
pair. -/

/-- Modelled from the spec: `CallDataSerializer::push_argument_bytes` —
append one encoded argument buffer to the outbound call data. -/
def pushArgumentBytes (ser : List (List Nat)) (buf : List Nat) : List (List Nat) :=
  ser ++ [buf]

/-- The blanket `AsynCallArg` implementation for an encodable type (lines
13-23): push the top-level encoding (`using_top_encoded`); infallible for
this core's concrete types. -/
def pushAsyncArgEncodable {β : Type} (enc : β → List Nat) (x : β)
    (ser : List (List Nat)) : Except SCError Unit × List (List Nat) :=
  (Except.ok (), pushArgumentBytes ser (enc x))

/-- `push_async_arg` for `VarArgs<T>` (lines 29-34): push every element in
order, stopping at the first error. -/
def varArgsPushAsyncArg {β : Type} (enc : β → List Nat) :
    List β → List (List Nat) → Except SCError Unit × List (List Nat)
  | [], ser => (Except.ok (), ser)
  | x :: rest, ser =>
      match pushAsyncArgEncodable enc x ser with
      | (Except.ok _, ser1) => varArgsPushAsyncArg enc rest ser1
      | (Except.error e, ser1) => (Except.error e, ser1)

/-- `push_async_arg_exact` for `VarArgs<T>` (lines 36-42): first check the
length against the expected count, erroring before any push on mismatch. -/
def varArgsPushAsyncArgExact {β : Type} (enc : β → List Nat) (elems : List β)
    (expected : Nat) (ser : List (List Nat)) : Except SCError Unit × List (List Nat) :=
  if elems.length ≠ expected then
    (Except.error (SCError.Static argAsyncWrongNumber), ser)
  else varArgsPushAsyncArg enc elems ser

/-! ### Theorems -/

theorem natToBytesBEFuel_congr :
    ∀ n f1 f2, n ≤ f1 → n ≤ f2 → natToBytesBEFuel f1 n = natToBytesBEFuel f2 n := by
  intro n
  induction n using Nat.strong_induction_on with
  | _ n ih =>
      intro f1 f2 h1 h2
      match n, f1, f2, h1, h2 with
      | 0, f1, f2, _, _ =>
          cases f1 <;> cases f2 <;> rfl
      | m + 1, a + 1, b + 1, _, _ =>
          have hdiv : (m + 1) / 256 < m + 1 := Nat.div_lt_self (Nat.succ_pos m) (by norm_num)
          rw [natToBytesBEFuel, natToBytesBEFuel,
            ih ((m + 1) / 256) hdiv a b (by omega) (by omega)]

theorem natToBytesBE_zero : natToBytesBE 0 = [] := rfl

theorem natToBytesBE_succ (m : Nat) :
    natToBytesBE (m + 1) = natToBytesBE ((m + 1) / 256) ++ [(m + 1) % 256] := by
  have hdiv : (m + 1) / 256 < m + 1 := Nat.div_lt_self (Nat.succ_pos m) (by norm_num)
  rw [natToBytesBE, natToBytesBE, natToBytesBEFuel,
    natToBytesBEFuel_congr ((m + 1) / 256) m ((m + 1) / 256) (by omega) (le_refl _)]

theorem beToNat_append_single (l : List Nat) (b : Nat) :
    beToNat (l ++ [b]) = beToNat l * 256 + b := by
  induction l with
  | nil => simp [beToNat]
  | cons d rest ih =>
      simp only [List.cons_append, beToNat, List.append_eq, ih, List.length_append,
        List.length_cons, List.length_nil]
      ring

theorem beToNat_natToBytesBE (n : Nat) : beToNat (natToBytesBE n) = n := by
  induction n using Nat.strong_induction_on with
  | _ n ih =>
      match n with
      | 0 => simp [natToBytesBE_zero, beToNat]
      | m + 1 =>
          rw [natToBytesBE_succ, beToNat_append_single,
            ih ((m + 1) / 256) (Nat.div_lt_self (Nat.succ_pos m) (by norm_num))]
          omega

theorem natToBytesBE_ne_nil (n : Nat) (hn : 0 < n) : natToBytesBE n ≠ [] := by
  match n, hn with
  | m + 1, _ =>
      rw [natToBytesBE_succ]
      simp

theorem natToBytesBE_lt (n : Nat) : ∀ d ∈ natToBytesBE n, d < 256 := by
  induction n using Nat.strong_induction_on with
  | _ n ih =>
      match n with
      | 0 => simp [natToBytesBE_zero]
      | m + 1 =>
          rw [natToBytesBE_succ]
          intro d hd
          rcases List.mem_append.mp hd with h | h
          · exact ih ((m + 1) / 256) (Nat.div_lt_self (Nat.succ_pos m) (by norm_num)) d h
          · simp only [List.mem_singleton] at h
            subst h
            exact Nat.mod_lt _ (by norm_num)

theorem beToNat_lt (l : List Nat) (hl : ∀ d ∈ l, d < 256) :
    beToNat l < 256 ^ l.length := by
  induction l with
  | nil => simp [beToNat]
  | cons d rest ih =>
      have hd : d < 256 := hl d (List.mem_cons_self d rest)
      have hrest : beToNat rest < 256 ^ rest.length :=
        ih (fun x hx => hl x (List.mem_cons_of_mem d hx))
      simp only [beToNat, List.length_cons, pow_succ]
      calc d * 256 ^ rest.length + beToNat rest
          ≤ 255 * 256 ^ rest.length + beToNat rest := by
            have := Nat.le_of_lt_succ hd
            exact Nat.add_le_add_right (Nat.mul_le_mul_right _ this) _
        _ < 255 * 256 ^ rest.length + 256 ^ rest.length :=
            Nat.add_lt_add_left hrest _
        _ = 256 ^ rest.length * 256 := by ring

theorem twosCompLE_length (c : Bool) (l : List Nat) :
    (twosCompLE c l).length = l.length := by
  induction l generalizing c with
  | nil => cases c <;> simp [twosCompLE]
  | cons d rest ih =>
      cases c <;> simp [twosCompLE, ih]

theorem twosCompLE_lt (c : Bool) (l : List Nat) :
    ∀ d ∈ twosCompLE c l, d < 256 := by
  induction l generalizing c with
  | nil => cases c <;> simp [twosCompLE]
  | cons d rest ih =>
      intro x hx
      cases c with
      | false =>
          simp only [twosCompLE, List.mem_cons] at hx
          rcases hx with h | h
          · omega
          · exact ih false x h
      | true =>
          simp only [twosCompLE, List.mem_cons] at hx
          rcases hx with h | h
          · subst h
            exact Nat.mod_lt _ (by norm_num)
          · exact ih _ x h

theorem leToNat_lt (l : List Nat) (hl : ∀ d ∈ l, d < 256) :
    leToNat l < 256 ^ l.length := by
  induction l with
  | nil => simp [leToNat]
  | cons d rest ih =>
      have hd : d < 256 := hl d (List.mem_cons_self d rest)
      have hrest : leToNat rest < 256 ^ rest.length :=
        ih (fun x hx => hl x (List.mem_cons_of_mem d hx))
      simp only [leToNat, List.length_cons, pow_succ]
      calc d + 256 * leToNat rest < 256 + 256 * leToNat rest := by omega
        _ = 256 * (leToNat rest + 1) := by ring
        _ ≤ 256 * 256 ^ rest.length := Nat.mul_le_mul_left 256 hrest
        _ = 256 ^ rest.length * 256 := by ring

theorem twosCompLE_false_value (l : List Nat) (hl : ∀ d ∈ l, d < 256) :
    leToNat (twosCompLE false l) = 256 ^ l.length - 1 - leToNat l := by
  induction l with
  | nil => simp [twosCompLE, leToNat]
  | cons d rest ih =>
      have hd : d < 256 := hl d (List.mem_cons_self d rest)
      have hrest : leToNat rest < 256 ^ rest.length :=
        leToNat_lt rest (fun x hx => hl x (List.mem_cons_of_mem d hx))
      have ih' := ih (fun x hx => hl x (List.mem_cons_of_mem d hx))
      simp only [twosCompLE, leToNat, List.length_cons, pow_succ, ih',
        Nat.mod_eq_of_lt hd]
      omega

theorem twosCompLE_true_value (l : List Nat) (hl : ∀ d ∈ l, d < 256) :
    leToNat (twosCompLE true l) = (256 ^ l.length - leToNat l) % 256 ^ l.length := by
  induction l with
  | nil => simp [twosCompLE, leToNat]
  | cons d rest ih =>
      have hd : d < 256 := hl d (List.mem_cons_self d rest)
      have hmem : ∀ x ∈ rest, x < 256 := fun x hx => hl x (List.mem_cons_of_mem d hx)
      have hrest : leToNat rest < 256 ^ rest.length := leToNat_lt rest hmem
      have hd256 : d % 256 = d := Nat.mod_eq_of_lt hd
      rcases Nat.eq_zero_or_pos d with hd0 | hdpos
      · subst hd0
        have hc : decide ((255 - 0 % 256 + 1) % 256 = 0) = true := by rfl
        rw [twosCompLE, hc]
        simp only [leToNat, List.length_cons, pow_succ, ih hmem]
        have hsplit : 256 ^ rest.length * 256 - (0 + 256 * leToNat rest)
            = 256 * (256 ^ rest.length - leToNat rest) := by omega
        have hmod : 256 ^ rest.length * 256 = 256 * 256 ^ rest.length := by ring
        rw [hsplit, hmod, Nat.mul_mod_mul_left]
        norm_num
      · have hdig : (255 - d % 256 + 1) % 256 = 256 - d := by
          rw [hd256]
          have h1 : 255 - d + 1 = 256 - d := by omega
          rw [h1]
          exact Nat.mod_eq_of_lt (by omega)
        have hc : decide ((255 - d % 256 + 1) % 256 = 0) = false := by
          rw [hdig]
          simp only [decide_eq_false_iff_not]
          omega
        rw [twosCompLE, hc, hdig]
        simp only [leToNat, List.length_cons, pow_succ,
          twosCompLE_false_value rest hmem]
        have hvlt : 0 < d + 256 * leToNat rest := by omega
        have hub : d + 256 * leToNat rest < 256 ^ rest.length * 256 := by
          calc d + 256 * leToNat rest < 256 + 256 * leToNat rest := by omega
            _ = 256 * (leToNat rest + 1) := by ring
            _ ≤ 256 * 256 ^ rest.length := Nat.mul_le_mul_left 256 hrest
            _ = 256 ^ rest.length * 256 := by ring
        rw [Nat.mod_eq_of_lt (by omega)]
        omega

theorem leToNat_append_single (l : List Nat) (b : Nat) :
    leToNat (l ++ [b]) = leToNat l + b * 256 ^ l.length := by
  induction l with
  | nil => simp [leToNat]
  | cons d rest ih =>
      simp only [List.cons_append, leToNat, List.append_eq, ih, List.length_cons, pow_succ]
      ring

theorem beToNat_eq_leToNat_reverse (l : List Nat) :
    beToNat l = leToNat l.reverse := by
  induction l with
  | nil => simp [beToNat, leToNat]
  | cons d rest ih =>
      simp only [beToNat, List.reverse_cons, leToNat_append_single, ih,
        List.length_reverse]
      ring

theorem twosComplementBE_length (l : List Nat) :
    (twosComplementBE l).length = l.length := by
  simp [twosComplementBE, twosCompLE_length]

theorem twosComplementBE_lt (l : List Nat) :
    ∀ d ∈ twosComplementBE l, d < 256 := by
  intro d hd
  exact twosCompLE_lt true l.reverse d (List.mem_reverse.mp hd)

theorem beToNat_twosComplementBE (l : List Nat) (hl : ∀ d ∈ l, d < 256) :
    beToNat (twosComplementBE l) = (256 ^ l.length - beToNat l) % 256 ^ l.length := by
  rw [twosComplementBE, beToNat_eq_leToNat_reverse, List.reverse_reverse,
    twosCompLE_true_value l.reverse (fun d hd => hl d (List.mem_reverse.mp hd)),
    List.length_reverse, beToNat_eq_leToNat_reverse]

theorem beToNat_head_ge (d : Nat) (rest : List Nat)
    (hrest : ∀ x ∈ rest, x < 256) :
    d * 256 ^ rest.length ≤ beToNat (d :: rest) ∧
      beToNat (d :: rest) < (d + 1) * 256 ^ rest.length := by
  have h := beToNat_lt rest hrest
  constructor
  · simp only [beToNat]
    omega
  · simp only [beToNat]
    have : (d + 1) * 256 ^ rest.length = d * 256 ^ rest.length + 256 ^ rest.length := by
      ring
    omega

theorem beToNat_cons_zero (l : List Nat) : beToNat (0 :: l) = beToNat l := by
  simp [beToNat]

theorem beToNat_of_all_zero (l : List Nat) (h : ∀ b ∈ l, b = 0) : beToNat l = 0 := by
  induction l with
  | nil => rfl
  | cons d rest ih =>
      have hd : d = 0 := h d (List.mem_cons_self d rest)
      have hrest := ih (fun b hb => h b (List.mem_cons_of_mem d hb))
      simp [beToNat, hd, hrest]

/-- Auxiliary characterization of the negative-value decode of a
two's-complemented canonical byte string. -/
theorem fromSignedBytesBE_twosComplementBE (B : List Nat) (hB : ∀ d ∈ B, d < 256)
    (hlen : 0 < B.length) (hlb : 1 ≤ beToNat B)
    (hub : beToNat B ≤ 128 * 256 ^ (B.length - 1)) :
    fromSignedBytesBE (twosComplementBE B) = -(beToNat B : Int) := by
  have hn : beToNat B < 256 ^ B.length := beToNat_lt B hB
  have hElen : (twosComplementBE B).length = B.length := twosComplementBE_length B
  have hEval : beToNat (twosComplementBE B) = 256 ^ B.length - beToNat B := by
    rw [beToNat_twosComplementBE B hB]
    exact Nat.mod_eq_of_lt (by omega)
  cases hE : twosComplementBE B with
  | nil =>
      rw [hE] at hElen
      simp at hElen
      omega
  | cons h t =>
      have hlt' : ∀ d ∈ h :: t, d < 256 := by
        rw [← hE]
        exact twosComplementBE_lt B
      have htl : ∀ d ∈ t, d < 256 := fun d hd => hlt' d (List.mem_cons_of_mem _ hd)
      have hlen' : t.length + 1 = B.length := by
        rw [← hElen, hE]
        simp
      have hpow : 256 ^ B.length = 256 ^ t.length * 256 := by
        rw [← hlen']
        ring
      have hEv : beToNat (h :: t) = 256 ^ B.length - beToNat B := by
        rw [← hE, hEval]
      have hsub : B.length - 1 = t.length := by omega
      have h127 : 127 < h := by
        by_contra hcon
        push_neg at hcon
        have hup : beToNat (h :: t) < (h + 1) * 256 ^ t.length :=
          (beToNat_head_ge h t htl).2
        have hup' : (h + 1) * 256 ^ t.length ≤ 128 * 256 ^ t.length :=
          Nat.mul_le_mul_right _ (by omega)
        rw [hsub] at hub
        omega
      rw [fromSignedBytesBE, if_pos h127]
      have hval : beToNat (twosComplementBE (h :: t)) = beToNat B := by
        rw [beToNat_twosComplementBE (h :: t) hlt']
        have hlc : (h :: t).length = B.length := by
          simpa using hlen'
        rw [hEv, hlc]
        have hflip : 256 ^ B.length - (256 ^ B.length - beToNat B) = beToNat B := by
          omega
        rw [hflip, Nat.mod_eq_of_lt hn]
      rw [hval]

theorem toSignedBytesBE_nonneg (x : Int) (hx : 0 ≤ x) :
    toSignedBytesBE x =
      (if 127 < (magBytesBE x.natAbs).headD 0 then 0 :: magBytesBE x.natAbs
       else magBytesBE x.natAbs) := by
  have hnlt : ¬ x < 0 := not_lt.mpr hx
  simp only [toSignedBytesBE, hnlt, if_false, and_false, not_false_iff, and_true]

theorem toSignedBytesBE_neg (x : Int) (hx : x < 0) :
    toSignedBytesBE x =
      twosComplementBE
        (if 127 < (magBytesBE x.natAbs).headD 0 ∧
            ¬((magBytesBE x.natAbs).headD 0 = 128 ∧
              ∀ b ∈ (magBytesBE x.natAbs).tail, b = 0) then
          0 :: magBytesBE x.natAbs
        else magBytesBE x.natAbs) := by
  simp only [toSignedBytesBE, hx, if_true, and_true, iff_true]

/-- Round-trip of the Computed backend's signed big-endian byte encoding:
decoding the encoding of any integer recovers the integer. -/
theorem fromSigned_toSigned (x : Int) : fromSignedBytesBE (toSignedBytesBE x) = x := by
  rcases lt_trichotomy x 0 with hneg | hzero | hpos
  · have hn1 : 1 ≤ x.natAbs := by omega
    have hbytes_ne : natToBytesBE x.natAbs ≠ [] := natToBytesBE_ne_nil _ (by omega)
    obtain ⟨first, tail, hcons⟩ := List.exists_cons_of_ne_nil hbytes_ne
    have hlt : ∀ d ∈ natToBytesBE x.natAbs, d < 256 := natToBytesBE_lt _
    have hval : beToNat (natToBytesBE x.natAbs) = x.natAbs := beToNat_natToBytesBE _
    have hmag : magBytesBE x.natAbs = natToBytesBE x.natAbs := by
      rw [magBytesBE, if_neg (by omega)]
    rw [toSignedBytesBE_neg x hneg, hmag, hcons]
    rw [hcons] at hlt hval
    have hfirst : first < 256 := hlt first (List.mem_cons_self first tail)
    have htail : ∀ d ∈ tail, d < 256 := fun d hd => hlt d (List.mem_cons_of_mem _ hd)
    simp only [List.headD_cons, List.tail_cons]
    by_cases hC : 127 < first ∧ ¬(first = 128 ∧ ∀ b ∈ tail, b = 0)
    · rw [if_pos hC]
      have hres := fromSignedBytesBE_twosComplementBE (0 :: first :: tail)
        (by
          intro d hd
          rcases List.mem_cons.mp hd with h | h
          · omega
          · exact hlt d h)
        (by simp)
        (by rw [beToNat_cons_zero, hval]; omega)
        (by
          rw [beToNat_cons_zero, hval]
          have hbound : beToNat (first :: tail) < 256 ^ (first :: tail).length :=
            beToNat_lt _ hlt
          simp only [List.length_cons] at hbound ⊢
          rw [hval] at hbound
          have hlen1 : tail.length + 1 + 1 - 1 = tail.length + 1 := rfl
          rw [hlen1]
          have hle : 256 ^ (tail.length + 1) ≤ 128 * 256 ^ (tail.length + 1) :=
            Nat.le_mul_of_pos_left _ (by norm_num)
          omega)
      rw [hres, beToNat_cons_zero, hval]
      omega
    · rw [if_neg hC]
      have hub : x.natAbs ≤ 128 * 256 ^ tail.length := by
        by_cases h127 : 127 < first
        · have hD : first = 128 ∧ ∀ b ∈ tail, b = 0 := by
            by_contra hD
            exact hC ⟨h127, hD⟩
          have : beToNat (first :: tail) = 128 * 256 ^ tail.length := by
            rw [beToNat, hD.1, beToNat_of_all_zero tail hD.2]
            omega
          omega
        · push_neg at h127
          have hup : beToNat (first :: tail) < (first + 1) * 256 ^ tail.length :=
            (beToNat_head_ge first tail htail).2
          have : (first + 1) * 256 ^ tail.length ≤ 128 * 256 ^ tail.length :=
            Nat.mul_le_mul_right _ (by omega)
          omega
      have hres := fromSignedBytesBE_twosComplementBE (first :: tail) hlt
        (by simp) (by omega)
        (by
          simp only [List.length_cons]
          have : tail.length + 1 - 1 = tail.length := by omega
          rw [this, hval]
          exact hub)
      rw [hres, hval]
      omega
  · subst hzero
    decide
  · have hn1 : 1 ≤ x.natAbs := by omega
    have hbytes_ne : natToBytesBE x.natAbs ≠ [] := natToBytesBE_ne_nil _ (by omega)
    obtain ⟨first, tail, hcons⟩ := List.exists_cons_of_ne_nil hbytes_ne
    have hval : beToNat (natToBytesBE x.natAbs) = x.natAbs := beToNat_natToBytesBE _
    have hmag : magBytesBE x.natAbs = natToBytesBE x.natAbs := by
      rw [magBytesBE, if_neg (by omega)]
    rw [toSignedBytesBE_nonneg x (le_of_lt hpos), hmag, hcons]
    rw [hcons] at hval
    simp only [List.headD_cons]
    by_cases h127 : 127 < first
    · rw [if_pos h127, fromSignedBytesBE, if_neg (by omega), beToNat_cons_zero, hval]
      omega
    · rw [if_neg h127, fromSignedBytesBE, if_neg h127, hval]
      omega

theorem set_append_length (l : List Int) (a b : Int) :
    (l ++ [a]).set l.length b = l ++ [b] := by
  induction l with
  | nil => rfl
  | cons d rest ih => simp [List.set, ih]

theorem getVal_append_lt (st : Host) (v : Int) (h : Nat) (hh : h < st.vals.length) :
    getVal (bigIntNew st v).1 h = getVal st h := by
  simp only [bigIntNew, getVal]
  exact List.getD_append _ _ _ _ hh

theorem getVal_append_self (st : Host) (v : Int) :
    getVal (bigIntNew st v).1 st.vals.length = v := by
  simp only [bigIntNew, getVal]
  rw [List.getD_append_right _ _ _ _ (le_refl _)]
  simp

theorem getVal_mk_append_lt (vs : List Int) (v : Int) (h : Nat) (hh : h < vs.length) :
    getVal ⟨vs ++ [v]⟩ h = getVal ⟨vs⟩ h := by
  simp only [getVal]
  exact List.getD_append _ _ _ _ hh

theorem getVal_mk_append_self (vs : List Int) (v : Int) :
    getVal ⟨vs ++ [v]⟩ vs.length = v := by
  simp only [getVal]
  rw [List.getD_append_right _ _ _ _ (le_refl _)]
  simp

/-- The state and handle produced by the Delegated backend's binary-operator
pattern: a fresh handle holding the operation's result is appended. -/
theorem andesBinOp_spec (f : Int → Int → Int) (st : Host) (x y : Nat)
    (hx : x < st.vals.length) (hy : y < st.vals.length) :
    andesBinOp f st x y =
      (⟨st.vals ++ [f (getVal st x) (getVal st y)]⟩, st.vals.length) := by
  simp only [andesBinOp, bigIntNew, hostBinOp, setVal]
  rw [getVal_mk_append_lt st.vals 0 x hx, getVal_mk_append_lt st.vals 0 y hy]
  rw [set_append_length]

/-- Value behind the handle returned by the binary-operator pattern. -/
theorem andesBinOp_value (f : Int → Int → Int) (st : Host) (x y : Nat)
    (hx : x < st.vals.length) (hy : y < st.vals.length) :
    getVal (andesBinOp f st x y).1 (andesBinOp f st x y).2 =
      f (getVal st x) (getVal st y) := by
  rw [andesBinOp_spec f st x y hx hy]
  exact getVal_mk_append_self _ _

theorem icmp_sign (t : Int) : icmp (Int.sign t) 0 = icmp t 0 := by
  rcases lt_trichotomy t 0 with h | h | h
  · rw [Int.sign_eq_neg_one_of_neg h]
    simp [icmp, h]
  · subst h
    rfl
  · rw [Int.sign_eq_one_of_pos h]
    simp only [icmp]
    rw [if_neg (by omega), if_neg (by omega), if_neg (by omega), if_neg (by omega)]

theorem icmp_sub_zero (v s : Int) : icmp (v - s) 0 = icmp v s := by
  simp only [icmp]
  rcases lt_trichotomy v s with h | h | h
  · rw [if_pos (by omega), if_pos h]
  · subst h
    simp
  · rw [if_neg (by omega), if_neg (by omega), if_neg (by omega), if_neg (by omega)]

theorem singleLoad_ok {α : Type} (v : α) (rest : List (Except SCError α)) :
    singleLoad (Except.ok v :: rest) = Except.ok (v, rest) := rfl

theorem singleLoad_error {α : Type} (e : SCError) (rest : List (Except SCError α)) :
    singleLoad (Except.error e :: rest) = Except.error e := rfl

/-- Faithfulness bridge: `varArgsLoad` on a nonempty loader performs one
`singleLoad` (the loop body) and recurses on what that load leaves. -/
theorem varArgsLoad_cons {α : Type} (x : Except SCError α) (rest : List (Except SCError α)) :
    varArgsLoad (x :: rest) =
      (match singleLoad (x :: rest) with
        | Except.error e => Except.error e
        | Except.ok (v, r) =>
            match varArgsLoad r with
            | Except.error e => Except.error e
            | Except.ok (vs, rem) => Except.ok (v :: vs, rem)) := by
  cases x <;> rfl

theorem varArgsLoad_okList {α : Type} (l : List α) :
    varArgsLoad (okList l) = Except.ok (l, []) := by
  induction l with
  | nil => rfl
  | cons a rest ih =>
      simp only [okList, List.map_cons] at ih ⊢
      rw [varArgsLoad, ih]

theorem multiArgLoad_okList {α : Type} (n : Nat) (l : List α) (hn : n ≤ l.length) :
    multiArgLoad n (okList l) = Except.ok (l.take n, okList (l.drop n)) := by
  induction n generalizing l with
  | zero => simp [multiArgLoad]
  | succ n ih =>
      cases l with
      | nil => simp at hn
      | cons a rest =>
          simp only [okList, List.map_cons]
          rw [multiArgLoad, singleLoad_ok]
          dsimp only
          simp only [List.length_cons] at hn
          have := ih rest (by omega)
          simp only [okList] at this
          rw [this]
          simp [List.take_succ_cons, List.drop_succ_cons, okList]

theorem multiArgLoad_short {α : Type} (n : Nat) (l : List α) (hn : l.length < n) :
    multiArgLoad n (okList l) = Except.error (SCError.Static argWrongNumber) := by
  induction n generalizing l with
  | zero => simp at hn
  | succ n ih =>
      cases l with
      | nil =>
          rw [show okList ([] : List α) = [] from rfl, multiArgLoad]
          rfl
      | cons a rest =>
          simp only [okList, List.map_cons]
          rw [multiArgLoad, singleLoad_ok]
          dsimp only
          simp only [List.length_cons] at hn
          have := ih rest (by omega)
          simp only [okList] at this
          rw [this]

theorem checkNoMoreArgs_nil {α : Type} :
    checkNoMoreArgs ([] : List (Except SCError α)) = Except.ok () := rfl

theorem checkNoMoreArgs_cons {α : Type} (x : Except SCError α) (rest : List (Except SCError α)) :
    checkNoMoreArgs (x :: rest) = Except.error (SCError.Static argWrongNumber) := rfl

theorem varArgsPushAsyncArg_spec {β : Type} (enc : β → List Nat) (elems : List β)
    (ser : List (List Nat)) :
    varArgsPushAsyncArg enc elems ser = (Except.ok (), ser ++ elems.map enc) := by
  induction elems generalizing ser with
  | nil => simp [varArgsPushAsyncArg]
  | cons x rest ih =>
      rw [varArgsPushAsyncArg]
      simp only [pushAsyncArgEncodable, pushArgumentBytes, ih, List.map_cons]
      simp [List.append_assoc]

theorem hostSignedBytes_roundtrip (x : Int) :
    fromSignedBytesBE (hostSignedBytes x) = x := by
  by_cases h : x = 0
  · subst h
    rfl
  · rw [hostSignedBytes, if_neg h, fromSigned_toSigned]

theorem andesFromSignedBytesBE_spec (st : Host) (bytes : List Nat) :
    andesFromSignedBytesBE st bytes =
      (⟨st.vals ++ [fromSignedBytesBE bytes]⟩, st.vals.length) := by
  simp only [andesFromSignedBytesBE, bigIntNew, bigIntSetSignedBytes, setVal]
  rw [set_append_length]

theorem usizeDep_roundtrip (n : Nat) (hn : n < 256 ^ 4) (rest : List Nat) :
    usizeDepDecode (usizeDepEncode n ++ rest) = Except.ok (n, rest) := by
  simp only [usizeDepEncode, usizeDepDecode, List.cons_append, List.nil_append]
  have hval : n / 256 ^ 3 % 256 * 256 ^ 3 + n / 256 ^ 2 % 256 * 256 ^ 2 +
      n / 256 % 256 * 256 + n % 256 = n := by
    norm_num at hn ⊢
    omega
  rw [hval]

/-- C7: loading a variable-length list (`VarArgs<T>`) consumes exactly the
raw arguments remaining in the loader, preserves their order in the result,
and never fails because of the count — an exhausted loader yields the empty
list, not an error. -/
theorem var_args_consume_all {α : Type} (l : List α) :
    varArgsLoad (okList l) = Except.ok (l, []) :=
  varArgsLoad_okList l

/-- C10: for a decodable non-unit type, loading from a loader that reports no
remaining raw argument yields the static "wrong number of arguments" error —
not success and not a decode error — while an error returned by the loader
itself is propagated unchanged; the unit marker type instead succeeds without
consuming anything. -/
theorem missing_arg_static_error {α : Type} (e : SCError)
    (rest : List (Except SCError α)) :
    singleLoad ([] : List (Except SCError α)) =
      Except.error (SCError.Static argWrongNumber) ∧
    singleLoad (Except.error e :: rest) = Except.error e ∧
    unitArgLoad ([] : List (Except SCError α)) = Except.ok ((), []) :=
  ⟨rfl, rfl, rfl⟩

/-- C4: for every arity `n` in 2..16, loading a fixed-arity tuple
(`MultiArgN`, one raw argument per non-recursive component) followed by
`check_no_more_args` succeeds iff exactly `n` raw arguments were supplied;
with `n + 1` arguments the tuple load itself succeeds and the "wrong argument
count" error is raised only by the explicit check. -/
theorem multi_arg_exact_count {α : Type} (n : Nat) (l : List α)
    (_h2 : 2 ≤ n) (_h16 : n ≤ 16) :
    (multiArgLoadThenCheck n (okList l) = Except.ok l ↔ l.length = n) ∧
    (l.length = n + 1 →
      multiArgLoad n (okList l) = Except.ok (l.take n, okList (l.drop n)) ∧
      checkNoMoreArgs (okList (l.drop n)) =
        Except.error (SCError.Static argWrongNumber)) := by
  constructor
  · constructor
    · intro hok
      by_contra hne
      rcases lt_or_gt_of_ne hne with hlt | hgt
      · rw [multiArgLoadThenCheck, multiArgLoad_short n l hlt] at hok
        exact absurd hok (by simp)
      · rw [multiArgLoadThenCheck, multiArgLoad_okList n l (le_of_lt hgt)] at hok
        dsimp only at hok
        cases hd : l.drop n with
        | nil =>
            have := List.drop_eq_nil_iff.mp hd
            omega
        | cons a t =>
            rw [hd] at hok
            simp only [okList, List.map_cons, checkNoMoreArgs_cons] at hok
            exact Except.noConfusion hok
    · intro hlen
      rw [multiArgLoadThenCheck, multiArgLoad_okList n l (le_of_eq hlen.symm)]
      dsimp only
      rw [← hlen, List.take_length, List.drop_length]
      rfl
  · intro hlen
    have hle : n ≤ l.length := by omega
    refine ⟨multiArgLoad_okList n l hle, ?_⟩
    have hdroplen : (l.drop n).length = 1 := by
      rw [List.length_drop]
      omega
    cases hd : l.drop n with
    | nil =>
        rw [hd] at hdroplen
        simp at hdroplen
    | cons a t =>
        simp only [okList, List.map_cons]
        exact checkNoMoreArgs_cons _ _

/-- C4 witness: with arity 2 and three raw arguments, the tuple load itself
succeeds and only the explicit check raises the error. -/
theorem multi_arg_exact_count_wit :
    multiArgLoad 2 (okList ([10, 20, 30] : List Int)) =
      Except.ok (([10, 20, 30] : List Int).take 2, okList (([10, 20, 30] : List Int).drop 2)) ∧
    checkNoMoreArgs (okList (([10, 20, 30] : List Int).drop 2)) =
      Except.error (SCError.Static argWrongNumber) :=
  (multi_arg_exact_count 2 [10, 20, 30] (by decide) (by decide)).2 rfl

/-- C5: the arity-checked push of a variable-length list pushes exactly the
top-level-encoded elements, in order, iff the list length equals the
expected count; otherwise it fails with the "wrong number of async
arguments" error and leaves the serializer unchanged. -/
theorem push_async_exact {β : Type} (enc : β → List Nat) (elems : List β)
    (expected : Nat) (ser : List (List Nat)) :
    (elems.length = expected →
      varArgsPushAsyncArgExact enc elems expected ser =
        (Except.ok (), ser ++ elems.map enc)) ∧
    (elems.length ≠ expected →
      varArgsPushAsyncArgExact enc elems expected ser =
        (Except.error (SCError.Static argAsyncWrongNumber), ser)) := by
  constructor
  · intro h
    rw [varArgsPushAsyncArgExact, if_neg (fun hc => hc h)]
    exact varArgsPushAsyncArg_spec enc elems ser
  · intro h
    rw [varArgsPushAsyncArgExact, if_pos h]

/-- C5 witness: a two-element list against expected counts 2 and 3. -/
theorem push_async_exact_wit :
    varArgsPushAsyncArgExact (fun b : Nat => [b]) [1, 2] 2 [[9]] =
      (Except.ok (), [[9], [1], [2]]) ∧
    varArgsPushAsyncArgExact (fun b : Nat => [b]) [1, 2] 3 [[9]] =
      (Except.error (SCError.Static argAsyncWrongNumber), [[9]]) := by
  constructor
  · have h := (push_async_exact (fun b : Nat => [b]) [1, 2] 2 [[9]]).1 rfl
    simpa using h
  · exact (push_async_exact (fun b : Nat => [b]) [1, 2] 3 [[9]]).2 (by decide)

/-- C6: decoding an `AsyncCallResult<T>` first loads the signed 32-bit error
code; code `0` followed by a success payload yields the success variant with
that payload, and a nonzero code followed by a message yields the failure
variant carrying exactly that code and those message bytes. -/
theorem async_call_result_decode {St β : Type}
    (loadI32 : St → Except SCError (Int × St))
    (loadT : St → Except SCError (β × St))
    (loadBytes : St → Except SCError (List Nat × St))
    (st st1 st2 : St) (v : β) (c : Int) (m : List Nat) :
    (loadI32 st = Except.ok (0, st1) → loadT st1 = Except.ok (v, st2) →
      asyncCallResultLoad loadI32 loadT loadBytes st =
        Except.ok (AsyncCallResult.Ok v, st2)) ∧
    (loadI32 st = Except.ok (c, st1) → c ≠ 0 →
      loadBytes st1 = Except.ok (m, st2) →
      asyncCallResultLoad loadI32 loadT loadBytes st =
        Except.ok (AsyncCallResult.Err ⟨c, m⟩, st2)) := by
  constructor
  · intro h1 h2
    rw [asyncCallResultLoad, h1]
    dsimp only
    rw [if_pos rfl, h2]
  · intro h1 hc h2
    rw [asyncCallResultLoad, h1]
    dsimp only
    rw [if_neg hc, h2]

/-- C6 witness: concrete loaders for the success and failure paths. -/
theorem async_call_result_decode_wit :
    asyncCallResultLoad (fun s : Nat => Except.ok ((0 : Int), s + 1))
      (fun s => Except.ok ((42 : Nat), s + 1))
      (fun s => Except.ok (([7] : List Nat), s + 1)) 0 =
      Except.ok (AsyncCallResult.Ok 42, 2) ∧
    asyncCallResultLoad (fun s : Nat => Except.ok ((5 : Int), s + 1))
      (fun s => Except.ok ((42 : Nat), s + 1))
      (fun s => Except.ok (([7] : List Nat), s + 1)) 0 =
      Except.ok (AsyncCallResult.Err ⟨5, [7]⟩, 2) := by
  constructor
  · exact (async_call_result_decode (fun s : Nat => Except.ok ((0 : Int), s + 1))
      (fun s => Except.ok ((42 : Nat), s + 1))
      (fun s => Except.ok (([7] : List Nat), s + 1)) 0 1 2 42 0 [7]).1 rfl rfl
  · exact (async_call_result_decode (fun s : Nat => Except.ok ((5 : Int), s + 1))
      (fun s => Except.ok ((42 : Nat), s + 1))
      (fun s => Except.ok (([7] : List Nat), s + 1)) 0 1 2 42 5 [7]).2 rfl (by decide) rfl

/-- C2 counterexample: in the Delegated backend, constructing `-7` and
querying its sign yields the distinct negative state `Minus`, so the sign
query does not return one of only two states in either backend. -/
theorem sign_two_state_cx :
    andesSign (bigIntNew ⟨[]⟩ (-7)).1 (bigIntNew ⟨[]⟩ (-7)).2 = Sign.Minus ∧
    Sign.Minus ≠ Sign.NoSign ∧ Sign.Minus ≠ Sign.Plus := by decide

/-- C2 (amended): the two-state collapse holds only in the Computed backend,
whose sign query returns `NoSign` for zero and for negative values and `Plus`
for positive ones; the Delegated backend's sign query distinguishes all three
states, returning `Minus` for negative values. -/
theorem sign_two_state_amended (x : Int) (st : Host) (h : Nat) :
    (rustSign x = Sign.NoSign ∨ rustSign x = Sign.Plus) ∧
    (x < 0 → rustSign x = Sign.NoSign) ∧
    (0 < x → rustSign x = Sign.Plus) ∧
    (getVal st h < 0 → andesSign st h = Sign.Minus) ∧
    (getVal st h = 0 → andesSign st h = Sign.NoSign) ∧
    (0 < getVal st h → andesSign st h = Sign.Plus) := by
  have hr1 : x < 0 → rustSign x = Sign.NoSign := by
    intro hy
    rw [rustSign, numBigIntSign, if_pos hy]
  have hr2 : x = 0 → rustSign x = Sign.NoSign := by
    intro hy
    rw [rustSign, numBigIntSign, if_neg (by omega), if_pos hy]
  have hr3 : 0 < x → rustSign x = Sign.Plus := by
    intro hy
    rw [rustSign, numBigIntSign, if_neg (by omega), if_neg (by omega)]
  refine ⟨?_, hr1, hr3, ?_, ?_, ?_⟩
  · rcases lt_trichotomy x 0 with hy | hy | hy
    · exact Or.inl (hr1 hy)
    · exact Or.inl (hr2 hy)
    · exact Or.inr (hr3 hy)
  · intro hv
    rw [andesSign, bigIntSign, Int.sign_eq_neg_one_of_neg hv]
    decide
  · intro hv
    rw [andesSign, bigIntSign, hv]
    decide
  · intro hv
    rw [andesSign, bigIntSign, Int.sign_eq_one_of_pos hv]
    decide

/-- C2 witness: the amended statement at `x = -5` and a host holding `-5`. -/
theorem sign_two_state_wit :
    (rustSign (-5) = Sign.NoSign ∨ rustSign (-5) = Sign.Plus) ∧
    rustSign (-5) = Sign.NoSign ∧
    andesSign ⟨[-5]⟩ 0 = Sign.Minus := by
  have h := sign_two_state_amended (-5) ⟨[-5]⟩ 0
  exact ⟨h.1, h.2.1 (by decide), h.2.2.2.1 (by decide)⟩

/-- C3 counterexample: the Computed backend encodes zero as the single byte
`0x00`, not as the empty sequence. -/
theorem signed_bytes_zero_cx :
    toSignedBytesBE 0 = [0] ∧ toSignedBytesBE 0 ≠ ([] : List Nat) := by decide

/-- C3 (amended): `from_signed_bytes_be (to_signed_bytes_be x) = x` holds for
every representable integer in both backends; the zero encoding is the empty
sequence in the Delegated backend, while the Computed backend encodes zero as
the single byte `0x00`. -/
theorem signed_bytes_roundtrip_amended (x : Int) (st : Host) (h : Nat) :
    fromSignedBytesBE (toSignedBytesBE x) = x ∧
    getVal (andesFromSignedBytesBE st (andesToSignedBytesBE st h)).1
      (andesFromSignedBytesBE st (andesToSignedBytesBE st h)).2 = getVal st h ∧
    (getVal st h = 0 → andesToSignedBytesBE st h = []) ∧
    toSignedBytesBE 0 = [0] := by
  refine ⟨fromSigned_toSigned x, ?_, ?_, by decide⟩
  · rw [andesFromSignedBytesBE_spec]
    show getVal ⟨st.vals ++ [fromSignedBytesBE (andesToSignedBytesBE st h)]⟩
        st.vals.length = getVal st h
    rw [getVal_mk_append_self, andesToSignedBytesBE]
    exact hostSignedBytes_roundtrip _
  · intro h0
    rw [andesToSignedBytesBE, h0]
    rfl

/-- C3 witness: the round-trip at `-300`, and the empty zero encoding of the
Delegated backend on a host holding `0`. -/
theorem signed_bytes_roundtrip_wit :
    fromSignedBytesBE (toSignedBytesBE (-300)) = -300 ∧
    andesToSignedBytesBE ⟨[0]⟩ 0 = [] := by
  have h := signed_bytes_roundtrip_amended (-300) ⟨[0]⟩ 0
  exact ⟨h.1, h.2.2.1 rfl⟩

/-- C1 counterexample: constructing `-1` in both representations, the sign
query differs (`Minus` delegated, `NoSign` computed); constructing `0`, the
signed-byte encodings differ (empty delegated, `0x00` computed). -/
theorem backend_equiv_cx :
    andesSign (bigIntNew ⟨[]⟩ (-1)).1 (bigIntNew ⟨[]⟩ (-1)).2 = Sign.Minus ∧
    rustSign (-1) = Sign.NoSign ∧
    Sign.Minus ≠ Sign.NoSign ∧
    andesToSignedBytesBE (bigIntNew ⟨[]⟩ 0).1 (bigIntNew ⟨[]⟩ 0).2 = ([] : List Nat) ∧
    toSignedBytesBE 0 = [0] ∧
    ([] : List Nat) ≠ [0] := by decide

/-- C1 (amended): for any pair of handles holding values `a` and `b`, the two
representations produce the same logical value for add, subtract, multiply
and (for nonzero divisor) truncating-divide and truncating-remainder, the
same `Ordering` and equality for comparisons, identical signed-byte encodings
for every nonzero value, and the same `Sign` for every non-negative value —
the exceptions being the sign query at negative values and the encoding of
zero, per the counterexample. -/
theorem backend_equiv_amended (st : Host) (ha hb : Nat) (a b : Int)
    (hha : ha < st.vals.length) (hhb : hb < st.vals.length)
    (hva : getVal st ha = a) (hvb : getVal st hb = b) :
    getVal (andesAdd st ha hb).1 (andesAdd st ha hb).2 = rustAdd a b ∧
    getVal (andesSub st ha hb).1 (andesSub st ha hb).2 = rustSub a b ∧
    getVal (andesMul st ha hb).1 (andesMul st ha hb).2 = rustMul a b ∧
    (b ≠ 0 → getVal (andesTDiv st ha hb).1 (andesTDiv st ha hb).2 = rustDiv a b) ∧
    (b ≠ 0 → getVal (andesTMod st ha hb).1 (andesTMod st ha hb).2 = rustRem a b) ∧
    andesCmpOrd st ha hb = rustCmp a b ∧
    andesEqB st ha hb = rustEqB a b ∧
    (a ≠ 0 → andesToSignedBytesBE st ha = toSignedBytesBE a) ∧
    (0 ≤ a → andesSign st ha = rustSign a) := by
  subst hva
  subst hvb
  refine ⟨?_, ?_, ?_, fun _ => ?_, fun _ => ?_, ?_, ?_, ?_, ?_⟩
  · simpa [andesAdd, rustAdd] using andesBinOp_value (· + ·) st ha hb hha hhb
  · simpa [andesSub, rustSub] using andesBinOp_value (· - ·) st ha hb hha hhb
  · simpa [andesMul, rustMul] using andesBinOp_value (· * ·) st ha hb hha hhb
  · simpa [andesTDiv, rustDiv] using andesBinOp_value Int.tdiv st ha hb hha hhb
  · simpa [andesTMod, rustRem] using andesBinOp_value Int.tmod st ha hb hha hhb
  · rw [andesCmpOrd, bigIntCmp, icmp_sign, icmp_sub_zero, rustCmp]
  · rw [andesEqB, bigIntCmp, rustEqB]
    simp only [decide_eq_decide]
    rw [Int.sign_eq_zero_iff_zero, sub_eq_zero]
  · intro h0
    rw [andesToSignedBytesBE, hostSignedBytes, if_neg h0]
  · intro h0
    rcases eq_or_lt_of_le h0 with h | h
    · rw [andesSign, bigIntSign, ← h]
      decide
    · rw [andesSign, bigIntSign, Int.sign_eq_one_of_pos h, rustSign, numBigIntSign,
        if_neg (by omega), if_neg (by omega)]
      decide

/-- C1 witness: the amended statement on a host holding `7` and `-2`. -/
theorem backend_equiv_wit :
    getVal (andesAdd ⟨[7, -2]⟩ 0 1).1 (andesAdd ⟨[7, -2]⟩ 0 1).2 = rustAdd 7 (-2) ∧
    getVal (andesTDiv ⟨[7, -2]⟩ 0 1).1 (andesTDiv ⟨[7, -2]⟩ 0 1).2 = rustDiv 7 (-2) ∧
    getVal (andesTMod ⟨[7, -2]⟩ 0 1).1 (andesTMod ⟨[7, -2]⟩ 0 1).2 = rustRem 7 (-2) ∧
    andesCmpOrd ⟨[7, -2]⟩ 0 1 = rustCmp 7 (-2) ∧
    andesToSignedBytesBE ⟨[7, -2]⟩ 0 = toSignedBytesBE 7 ∧
    andesSign ⟨[7, -2]⟩ 0 = rustSign 7 := by
  have h := backend_equiv_amended ⟨[7, -2]⟩ 0 1 7 (-2) (by decide) (by decide) rfl rfl
  exact ⟨h.1, h.2.2.2.1 (by decide), h.2.2.2.2.1 (by decide), h.2.2.2.2.2.1,
    h.2.2.2.2.2.2.2.1 (by decide), h.2.2.2.2.2.2.2.2 (by decide)⟩

/-- C8: comparing a value directly against a 64-bit scalar — including the
Delegated backend's sign-query fast path for scalar zero — agrees with
promoting the scalar to the full type and comparing, in both backends. -/
theorem scalar_cmp_promotes (st : Host) (bi : Nat) (s : Int)
    (hbi : bi < st.vals.length) :
    andesPartialCmpI64 st bi s = andesCmpPromotedI64 st bi s ∧
    andesEqI64 st bi s = andesEqPromotedI64 st bi s ∧
    andesCmpPromotedI64 st bi s = icmp (getVal st bi) s ∧
    rustPartialCmpI64 (getVal st bi) s = icmp (getVal st bi) s ∧
    rustEqI64 (getVal st bi) s = rustEqB (getVal st bi) s := by
  have hsnd : (bigIntNew st s).2 = st.vals.length := rfl
  have hpro : bigIntCmp (bigIntNew st s).1 bi (bigIntNew st s).2 =
      Int.sign (getVal st bi - s) := by
    rw [bigIntCmp, getVal_append_lt st s bi hbi, hsnd, getVal_append_self]
  have hdir : andesCmpI64 st bi s = Int.sign (getVal st bi - s) := by
    by_cases hs : s = 0
    · subst hs
      rw [andesCmpI64, if_pos rfl, bigIntSign, Int.sub_zero]
    · rw [andesCmpI64, if_neg hs]
      exact hpro
  refine ⟨?_, ?_, ?_, rfl, rfl⟩
  · rw [andesPartialCmpI64, hdir]
    simp only [andesCmpPromotedI64]
    rw [hpro]
  · rw [andesEqI64, hdir]
    simp only [andesEqPromotedI64]
    rw [hpro]
  · simp only [andesCmpPromotedI64]
    rw [hpro, icmp_sign, icmp_sub_zero]

/-- C8 witness: a host holding `9`, compared against the scalars `0` (the
sign-query fast path) via the claim theorem. -/
theorem scalar_cmp_promotes_wit :
    andesPartialCmpI64 ⟨[9]⟩ 0 0 = andesCmpPromotedI64 ⟨[9]⟩ 0 0 ∧
    andesEqI64 ⟨[9]⟩ 0 0 = andesEqPromotedI64 ⟨[9]⟩ 0 0 ∧
    andesCmpPromotedI64 ⟨[9]⟩ 0 0 = icmp (getVal ⟨[9]⟩ 0) 0 ∧
    rustPartialCmpI64 (getVal ⟨[9]⟩ 0) 0 = icmp (getVal ⟨[9]⟩ 0) 0 ∧
    rustEqI64 (getVal ⟨[9]⟩ 0) 0 = rustEqB (getVal ⟨[9]⟩ 0) 0 :=
  scalar_cmp_promotes ⟨[9]⟩ 0 0 (by decide)

/-- C9: nested (dep) encoding of the big integer type writes the
length-prefixed signed big-endian byte form; nested decoding reads the length
field, consumes exactly that many bytes (recovering the value and leaving the
remainder untouched), and errors when fewer bytes remain. -/
theorem dep_codec_big_int (x : Int) (st st2 : Host) (h : Nat)
    (input rest rest2 : List Nat) (sz : Nat)
    (hx : (toSignedBytesBE x).length < 256 ^ 4)
    (hst : (andesToSignedBytesBE st h).length < 256 ^ 4) :
    rustDepEncode x = usizeDepEncode (toSignedBytesBE x).length ++ toSignedBytesBE x ∧
    rustDepDecode (rustDepEncode x ++ rest) = Except.ok (x, rest) ∧
    andesDepEncode st h =
      usizeDepEncode (andesToSignedBytesBE st h).length ++ andesToSignedBytesBE st h ∧
    andesDepDecode st2 (andesDepEncode st h ++ rest) =
      Except.ok (andesFromSignedBytesBE st2 (andesToSignedBytesBE st h), rest) ∧
    getVal (andesFromSignedBytesBE st2 (andesToSignedBytesBE st h)).1
      (andesFromSignedBytesBE st2 (andesToSignedBytesBE st h)).2 = getVal st h ∧
    (usizeDepDecode input = Except.ok (sz, rest2) → rest2.length < sz →
      rustDepDecode input = Except.error DecodeError.inputTooShort ∧
      andesDepDecode st2 input = Except.error DecodeError.inputTooShort) := by
  have hdec : ∀ (s r : List Nat), s.length < 256 ^ 4 →
      usizeDepDecode (sliceDepEncode s ++ r) = Except.ok (s.length, s ++ r) ∧
      readSlice s.length (s ++ r) = Except.ok (s, r) := by
    intro s r hs
    constructor
    · rw [sliceDepEncode, List.append_assoc]
      exact usizeDep_roundtrip s.length hs (s ++ r)
    · rw [readSlice, if_pos (by simp)]
      rw [List.take_left, List.drop_left]
  refine ⟨rfl, ?_, rfl, ?_, ?_, ?_⟩
  · obtain ⟨h1, h2⟩ := hdec (toSignedBytesBE x) rest hx
    rw [rustDepDecode, show rustDepEncode x = sliceDepEncode (toSignedBytesBE x) from rfl,
      h1]
    dsimp only
    rw [h2]
    dsimp only
    rw [fromSigned_toSigned]
  · obtain ⟨h1, h2⟩ := hdec (andesToSignedBytesBE st h) rest hst
    rw [andesDepDecode,
      show andesDepEncode st h = sliceDepEncode (andesToSignedBytesBE st h) from rfl, h1]
    dsimp only
    rw [h2]
  · rw [andesFromSignedBytesBE_spec]
    show getVal ⟨st2.vals ++ [fromSignedBytesBE (andesToSignedBytesBE st h)]⟩
        st2.vals.length = getVal st h
    rw [getVal_mk_append_self, andesToSignedBytesBE]
    exact hostSignedBytes_roundtrip _
  · intro h1 h2
    constructor
    · rw [rustDepDecode, h1]
      dsimp only
      rw [readSlice, if_neg (by omega)]
    · rw [andesDepDecode, h1]
      dsimp only
      rw [readSlice, if_neg (by omega)]

/-- C9 witness: the nested round-trip at `-300` with trailing input, and the
insufficient-bytes error on a five-byte prefix announcing five bytes with one
remaining. -/
theorem dep_codec_big_int_wit :
    rustDepDecode (rustDepEncode (-300) ++ [9]) = Except.ok (-300, [9]) ∧
    rustDepDecode [0, 0, 0, 5, 1] = Except.error DecodeError.inputTooShort := by
  have h := dep_codec_big_int (-300) ⟨[0]⟩ ⟨[]⟩ 0 [0, 0, 0, 5, 1] [9] [1] 5
    (by decide) (by decide)
  exact ⟨h.2.1, (h.2.2.2.2.2 rfl (by decide)).1⟩
